import Mathlib

/-!
Verification of the artalike pipeline (museum-collection similarity search).

The embedding follows the operative pipeline of the repository:
`scripts/crawl.py` (crawl coordinator), `scripts/download.py` (image-URL
extraction and dedup), `scripts/embed.py` (embedding ingestor),
`scripts/index.py` (FAISS index builder) and `server.py` (query service).
The root-level `crawl.py`, `embed.py`, `index.py`, `download.py` are earlier
drafts of the same scripts, superseded by the `scripts/` versions (for
instance `server.py` reads the `thumbnail_url` column that only
`scripts/embed.py` creates, and its startup error message points at
`scripts/index.py`).

SQLite tables are modelled as Lean lists of rows kept in rowid
(autoincrement-id) order, which is the physical order SQLite stores and
returns them in.  External collaborators (HTTP fetch, the embedding model,
`random.sample`, the FAISS ANN search) are modelled as function parameters,
matching the spec's treatment of them as black boxes.
-/

namespace Artalike

/-! Index builder (`scripts/index.py`).

`scripts/index.py` reads `SELECT id, embedding FROM embeddings ORDER BY id`
and then runs

```
for faiss_ix, (db_ix, embedding_blob) in tqdm(enumerate(rows)):
    assert faiss_ix == db_ix - 1
    index.add(embedding.reshape(1, -1))
```

`addVectors ix rows` models the loop from position `ix` on: a failing
assertion aborts the build (`none`); otherwise the result is the list of
vectors in index-slot order.  The Python assertion `faiss_ix == db_ix - 1`
over unbounded ints is rendered as `ix + 1 = dbIx` (equivalent over ℤ, and
faithful for `db_ix = 0`, unlike truncated ℕ subtraction). -/

def addVectors {α : Type} : Nat → List (Nat × α) → Option (List α)
  | _, [] => some []
  | ix, (dbIx, v) :: rest =>
    if ix + 1 = dbIx then (addVectors (ix + 1) rest).map (v :: ·) else none

/-- The vector-add loop of `scripts/index.py`, started at faiss position 0
over the rows scanned in ascending-id order.  `none` models the fatal
`AssertionError`. -/
def buildIndex {α : Type} (rows : List (Nat × α)) : Option (List α) :=
  addVectors 0 rows

theorem addVectors_eq_some {α : Type} :
    ∀ (rows : List (Nat × α)) (ix : Nat),
      (∀ i (h : i < rows.length), rows[i].1 = ix + 1 + i) →
      addVectors ix rows = some (rows.map Prod.snd) := by
  intro rows
  induction rows with
  | nil => intro ix _; rfl
  | cons hd tl ih =>
    intro ix hids
    have h0 : hd.1 = ix + 1 := by
      have := hids 0 (by simp)
      simpa using this
    have htl : ∀ i (h : i < tl.length), tl[i].1 = (ix + 1) + 1 + i := by
      intro i h
      have := hids (i + 1) (by simpa using Nat.succ_lt_succ h)
      simp at this
      omega
    cases hd with
    | mk dbIx v =>
      simp only [addVectors]
      simp only at h0
      rw [if_pos (by omega)]
      rw [ih (ix + 1) htl]
      rfl

theorem addVectors_some_ids {α : Type} :
    ∀ (rows : List (Nat × α)) (ix : Nat) (vs : List α),
      addVectors ix rows = some vs →
      ∀ i (h : i < rows.length), rows[i].1 = ix + 1 + i := by
  intro rows
  induction rows with
  | nil => intro ix vs _ i h; simp at h
  | cons hd tl ih =>
    intro ix vs hsome i h
    cases hd with
    | mk dbIx v =>
      simp only [addVectors] at hsome
      by_cases hix : ix + 1 = dbIx
      · rw [if_pos hix] at hsome
        cases hmap : addVectors (ix + 1) tl with
        | none => rw [hmap] at hsome; simp at hsome
        | some vs' =>
          cases i with
          | zero => simpa using hix.symm
          | succ j =>
            have hj : j < tl.length := by simpa using Nat.lt_of_succ_lt_succ h
            have := ih (ix + 1) vs' hmap j hj
            simp
            omega
      · rw [if_neg hix] at hsome
        simp at hsome

/-- C1: the index build aligns FAISS slots with `ordinal_id`s.  If the scanned
rows are gap-free with ids starting at 1 (row at 0-based position `i` has
`ordinal_id = i + 1`), the build succeeds and slot `i` holds exactly the
vector of `ordinal_id = i + 1`; if some `i + 1` (for `i` below the row count)
is missing among the scanned ids, the assertion fires and the build aborts
without producing an index. -/
theorem buildIndex_alignment {α : Type} (rows : List (Nat × α)) :
    ((∀ i (h : i < rows.length), rows[i].1 = i + 1) →
      buildIndex rows = some (rows.map Prod.snd) ∧
      ∀ i (h : i < rows.length),
        (rows.map Prod.snd).get ⟨i, by simpa using h⟩ = rows[i].2) ∧
    ((∃ i, i < rows.length ∧ (i + 1) ∉ rows.map Prod.fst) →
      buildIndex rows = none) := by
  constructor
  · intro hids
    refine ⟨addVectors_eq_some rows 0 (fun i h => by rw [hids i h]; omega), ?_⟩
    intro i h
    simp
  · intro ⟨i, hi, hmiss⟩
    cases hb : buildIndex rows with
    | none => rfl
    | some vs =>
      exfalso
      have hid := addVectors_some_ids rows 0 vs hb i hi
      apply hmiss
      have heq : (i + 1) = rows[i].1 := by omega
      rw [heq]
      exact List.mem_map_of_mem Prod.fst (List.get_mem rows i hi)

/-- Witness for C1 at a concrete two-row store: ids `[1, 2]` build
successfully into slots `[10, 20]`. -/
theorem buildIndex_alignment_witness :
    buildIndex [(1, (10 : Nat)), (2, 20)] = some [10, 20] :=
  ((buildIndex_alignment [(1, (10 : Nat)), (2, 20)]).1 (by decide)).1

/-! Python string primitives.

`scripts/crawl.py` extracts Louvre references with
`url.split('/ark:/53355/')[-1].replace('.json', '')` guarded by
`'/ark:/53355/' in url`.  The helpers below embed Python's `in`, `split` and
`replace` on character lists (structural recursion on an explicit fuel,
`fuel ≥ length`, so that concrete inputs evaluate by kernel reduction). -/

/-- Python `pat in s` (substring containment) on char lists. -/
def subIn (pat s : List Char) : Bool :=
  (List.range (s.length + 1)).any (fun i => pat.isPrefixOf (s.drop i))

/-- Python `s.split(pat)` for a non-empty `pat`: leftmost, non-overlapping.
`acc` holds the current part reversed; `fuel` bounds recursion depth. -/
def splitParts (pat : List Char) : Nat → List Char → List Char → List (List Char)
  | 0, acc, s => [acc.reverse ++ s]
  | fuel + 1, acc, s =>
    match s with
    | [] => [acc.reverse]
    | c :: rest =>
      if pat.isPrefixOf (c :: rest) then
        acc.reverse :: splitParts pat fuel [] ((c :: rest).drop pat.length)
      else
        splitParts pat fuel (c :: acc) rest

/-- Python `s.replace(pat, '')` for a non-empty `pat` (delete every leftmost,
non-overlapping occurrence). -/
def eraseOcc (pat : List Char) : Nat → List Char → List Char
  | 0, s => s
  | fuel + 1, s =>
    match s with
    | [] => []
    | c :: rest =>
      if pat.isPrefixOf (c :: rest) then
        eraseOcc pat fuel ((c :: rest).drop pat.length)
      else
        c :: eraseOcc pat fuel rest

/-- Python `s.split(pat)[-1]` (`split` never returns an empty list, so `[-1]`
is total; the `[]` default is unreachable). -/
def lastPart (pat s : List Char) : List Char :=
  (splitParts pat (s.length + 1) [] s).getLastD []

def arkPat : List Char := "/ark:/53355/".data

/-- The Louvre reference extraction of `scripts/crawl.py` (lines 141-145):

```
if '/ark:/53355/' in url.text:
    ref = url.text.split('/ark:/53355/')[-1].replace('.json', '')
    if ref: # Ensure ref is not empty
        refs.append(ref)
```

`none` means the sitemap entry is dropped. -/
def extractLouvreRef (u : String) : Option String :=
  if subIn arkPat u.data then
    let ref := eraseOcc ".json".data (lastPart arkPat u.data).length (lastPart arkPat u.data)
    if ref.isEmpty then none else some ⟨ref⟩
  else none

/-- The reference list `crawl_louvre` accumulates over the sitemap tree: one
entry per `<loc>` of each second-level sitemap document, in document order,
keeping only entries `extractLouvreRef` accepts. -/
def louvreRefs (sitemaps : List (List String)) : List String :=
  sitemaps.flatMap (fun doc => doc.filterMap extractLouvreRef)

/-! Crawl coordinator (`scripts/crawl.py`).

The `artworks` table (`UNIQUE(museum, accession_ref)`, autoincrement rowid)
is a list of rows in insertion order.  `save_artwork` is `INSERT OR IGNORE`.
Per-source crawling (`crawl_met` / `crawl_louvre` are line-for-line the same
algorithm, differing only in the museum tag and in how the listing and the
per-item fetch are obtained, both of which are parameters here):

1. obtain the full listing (`none` = listing fetch/parse failure, which
   returns early); `if not refs: return`;
2. `missing = list(set(refs) - set(existing))`;
3. `if not missing_refs: return`;
4. fetch each missing ref (`fetch r = none` = non-200 status or per-item
   exception, logged and skipped) and `save_artwork` each success;
5. `self.conn.commit()` once at the end.

The run is recorded as a trace of save/commit events so that both the final
table and the commit discipline can be stated.  `crawl()` gathers both
sources over one shared single-writer SQLite connection; `crawlerRun` is the
linearization met-then-louvre (the two tasks touch disjoint `(museum, ref)`
keys, so any interleaving yields the same table). -/

structure ArtRow where
  museum : String
  ref : String
  data : String
deriving DecidableEq, Repr

/-- Key lookup for `(museum, accession_ref)` in the `artworks` table. -/
def hasArtKey (tbl : List ArtRow) (m r : String) : Bool :=
  tbl.any (fun a => a.museum == m && a.ref == r)

/-- Model of `save_artwork`: `INSERT OR IGNORE INTO artworks ...` (no commit). -/
def saveArtwork (tbl : List ArtRow) (m r d : String) : List ArtRow :=
  if hasArtKey tbl m r then tbl else tbl ++ [⟨m, r, d⟩]

/-- Model of `get_existing_refs`: `SELECT accession_ref FROM artworks WHERE museum = ?`. -/
def existingRefs (tbl : List ArtRow) (m : String) : List String :=
  (tbl.filter (fun a => a.museum == m)).map ArtRow.ref

/-- Model of `missing_refs = list(api_refs_set - existing_refs_set)`: the set
difference, materialized in first-occurrence order (the Python `set` order
is arbitrary; every property proved below is order-independent). -/
def missingRefs (refs existing : List String) : List String :=
  refs.dedup.filter (fun r => !(existing.contains r))

inductive CrawlEv where
  | save (m r d : String)
  | commit
deriving DecidableEq, Repr

def isCommit : CrawlEv → Bool
  | .commit => true
  | .save _ _ _ => false

def commitCount (evs : List CrawlEv) : Nat :=
  (evs.filter isCommit).length

/-- The event trace of one source crawl of `scripts/crawl.py`: saves for each
successfully fetched missing ref, then the single batch commit.  Early
returns (listing failure, empty listing, empty missing set) produce no
events. -/
def crawlSourceTrace (m : String) (listing : Option (List String))
    (fetch : String → Option String) (tbl : List ArtRow) : List CrawlEv :=
  match listing with
  | none => []
  | some refs =>
    if refs.isEmpty then []
    else
      let missing := missingRefs refs (existingRefs tbl m)
      if missing.isEmpty then []
      else
        (missing.filterMap (fun r => (fetch r).map (fun d => CrawlEv.save m r d)))
          ++ [CrawlEv.commit]

/-- Replay the saves of a trace against the table (commit is a no-op on the
table contents themselves). -/
def applySaves (tbl : List ArtRow) : List CrawlEv → List ArtRow
  | [] => tbl
  | CrawlEv.save m r d :: evs => applySaves (saveArtwork tbl m r d) evs
  | CrawlEv.commit :: evs => applySaves tbl evs

/-- The table state a crash recovers to after a trace prefix: only events up
to the last commit are durable; saves since then are pending. -/
def durableState (committed pending : List ArtRow) : List CrawlEv → List ArtRow
  | [] => committed
  | CrawlEv.save m r d :: evs => durableState committed (saveArtwork pending m r d) evs
  | CrawlEv.commit :: evs => durableState pending pending evs

/-- One full source crawl (`crawl_met` / `crawl_louvre`): the table after the
run. -/
def crawlSource (m : String) (listing : Option (List String))
    (fetch : String → Option String) (tbl : List ArtRow) : List ArtRow :=
  applySaves tbl (crawlSourceTrace m listing fetch tbl)

/-- Model of `Crawler.crawl()`: both sources, sharing one table.  The Louvre listing
is the sitemap-tree extraction (`louvreRefs`); `none` aborts that source. -/
def crawlerRun (metListing : Option (List String))
    (louvreSitemaps : Option (List (List String)))
    (fetchMet fetchLouvre : String → Option String)
    (tbl : List ArtRow) : List ArtRow :=
  crawlSource "louvre" (louvreSitemaps.map louvreRefs) fetchLouvre
    (crawlSource "met" metListing fetchMet tbl)

theorem hasArtKey_iff (tbl : List ArtRow) (m r : String) :
    hasArtKey tbl m r = true ↔ ∃ a ∈ tbl, a.museum = m ∧ a.ref = r := by
  simp [hasArtKey, List.any_eq_true]

theorem hasArtKey_append_left (tbl t : List ArtRow) (m r : String)
    (h : hasArtKey tbl m r = true) : hasArtKey (tbl ++ t) m r = true := by
  rw [hasArtKey_iff] at h ⊢
  obtain ⟨a, ha, hp⟩ := h
  exact ⟨a, List.mem_append_left t ha, hp⟩

theorem mem_existingRefs (tbl : List ArtRow) (m r : String) :
    r ∈ existingRefs tbl m ↔ ∃ a ∈ tbl, a.museum = m ∧ a.ref = r := by
  simp only [existingRefs, List.mem_map, List.mem_filter, beq_iff_eq]
  constructor
  · rintro ⟨a, ⟨ha, hm⟩, hr⟩; exact ⟨a, ha, hm, hr⟩
  · rintro ⟨a, ha, hm, hr⟩; exact ⟨a, ⟨ha, hm⟩, hr⟩

theorem contains_existingRefs (tbl : List ArtRow) (m r : String) :
    (existingRefs tbl m).contains r = hasArtKey tbl m r := by
  rw [Bool.eq_iff_iff, hasArtKey_iff]
  have hc : (existingRefs tbl m).contains r = true ↔ r ∈ existingRefs tbl m := by
    simp [List.contains, List.elem_iff]
  rw [hc, mem_existingRefs]

theorem saveArtwork_append (tbl : List ArtRow) (m r d : String) :
    ∃ t, saveArtwork tbl m r d = tbl ++ t := by
  unfold saveArtwork
  by_cases h : hasArtKey tbl m r
  · exact ⟨[], by simp [h]⟩
  · exact ⟨[⟨m, r, d⟩], by simp [h]⟩

theorem applySaves_append (evs : List CrawlEv) :
    ∀ tbl, ∃ t, applySaves tbl evs = tbl ++ t := by
  induction evs with
  | nil => intro tbl; exact ⟨[], by simp [applySaves]⟩
  | cons e evs ih =>
    intro tbl
    cases e with
    | save m r d =>
      obtain ⟨t₁, ht₁⟩ := saveArtwork_append tbl m r d
      obtain ⟨t₂, ht₂⟩ := ih (saveArtwork tbl m r d)
      refine ⟨t₁ ++ t₂, ?_⟩
      show applySaves (saveArtwork tbl m r d) evs = tbl ++ (t₁ ++ t₂)
      rw [ht₂, ht₁, List.append_assoc]
    | commit =>
      obtain ⟨t, ht⟩ := ih tbl
      exact ⟨t, by simpa [applySaves] using ht⟩

theorem hasArtKey_applySaves_mono (evs : List CrawlEv) (tbl : List ArtRow)
    (m r : String) (h : hasArtKey tbl m r = true) :
    hasArtKey (applySaves tbl evs) m r = true := by
  obtain ⟨t, ht⟩ := applySaves_append evs tbl
  rw [ht]
  exact hasArtKey_append_left tbl t m r h

theorem hasArtKey_saveArtwork_self (tbl : List ArtRow) (m r d : String) :
    hasArtKey (saveArtwork tbl m r d) m r = true := by
  unfold saveArtwork
  by_cases h : hasArtKey tbl m r
  · simp [h]
  · rw [if_neg (by simpa using h)]
    rw [hasArtKey_iff]
    exact ⟨⟨m, r, d⟩, by simp, rfl, rfl⟩

theorem hasArtKey_applySaves_of_mem (evs : List CrawlEv) :
    ∀ tbl m r d, CrawlEv.save m r d ∈ evs →
      hasArtKey (applySaves tbl evs) m r = true := by
  induction evs with
  | nil => intro tbl m r d h; simp at h
  | cons e evs ih =>
    intro tbl m r d h
    cases e with
    | save m' r' d' =>
      rcases List.mem_cons.mp h with heq | hmem
      · injection heq with h1 h2 h3
        subst h1; subst h2; subst h3
        exact hasArtKey_applySaves_mono evs _ m r
          (hasArtKey_saveArtwork_self tbl m r d)
      · exact ih _ m r d hmem
    | commit =>
      rcases List.mem_cons.mp h with heq | hmem
      · cases heq
      · exact ih _ m r d hmem

theorem crawlSourceTrace_none (m : String) (fetch : String → Option String)
    (tbl : List ArtRow) : crawlSourceTrace m none fetch tbl = [] := rfl

theorem crawlSourceTrace_some (m : String) (refs : List String)
    (fetch : String → Option String) (tbl : List ArtRow) :
    crawlSourceTrace m (some refs) fetch tbl =
      if refs.isEmpty then []
      else if (missingRefs refs (existingRefs tbl m)).isEmpty then []
      else
        ((missingRefs refs (existingRefs tbl m)).filterMap
          (fun r => (fetch r).map (fun d => CrawlEv.save m r d)))
          ++ [CrawlEv.commit] := rfl

/-- Saturation: every ref still missing from the table for museum `m` fails
to fetch.  A crawl can add nothing to a saturated table. -/
def Saturated (m : String) (refs : List String)
    (fetch : String → Option String) (tbl : List ArtRow) : Prop :=
  ∀ r ∈ missingRefs refs (existingRefs tbl m), fetch r = none

theorem saturated_append (m : String) (refs : List String)
    (fetch : String → Option String) (tbl t : List ArtRow)
    (h : Saturated m refs fetch tbl) : Saturated m refs fetch (tbl ++ t) := by
  intro r hr
  apply h
  simp only [missingRefs, List.mem_filter] at hr ⊢
  refine ⟨hr.1, ?_⟩
  have := hr.2
  simp only [Bool.not_eq_eq_eq_not, Bool.not_true] at this ⊢
  rw [contains_existingRefs] at this ⊢
  cases hk : hasArtKey tbl m r with
  | false => rfl
  | true => rw [hasArtKey_append_left tbl t m r hk] at this; exact this

theorem crawlSource_of_saturated (m : String) (refs : List String)
    (fetch : String → Option String) (tbl : List ArtRow)
    (h : Saturated m refs fetch tbl) :
    crawlSource m (some refs) fetch tbl = tbl := by
  unfold crawlSource
  rw [crawlSourceTrace_some]
  by_cases he : refs.isEmpty
  · simp [he, applySaves]
  · rw [if_neg he]
    by_cases hm : (missingRefs refs (existingRefs tbl m)).isEmpty
    · simp [hm, applySaves]
    · rw [if_neg hm]
      have hfm : (missingRefs refs (existingRefs tbl m)).filterMap
          (fun r => (fetch r).map (fun d => CrawlEv.save m r d)) = [] := by
        rw [List.filterMap_eq_nil_iff]
        intro r hr
        rw [h r hr]
        rfl
      rw [hfm]
      rfl

theorem crawlSource_saturated (m : String) (refs : List String)
    (fetch : String → Option String) (tbl : List ArtRow) :
    Saturated m refs fetch (crawlSource m (some refs) fetch tbl) := by
  intro r hr
  cases hf : fetch r with
  | none => rfl
  | some d =>
    exfalso
    simp only [missingRefs, List.mem_filter] at hr
    have hrefs : r ∈ refs.dedup := hr.1
    have hnk : hasArtKey (crawlSource m (some refs) fetch tbl) m r = false := by
      have := hr.2
      rw [Bool.not_eq_eq_eq_not, Bool.not_true, contains_existingRefs] at this
      exact this
    by_cases hk : hasArtKey tbl m r = true
    · have hk' : hasArtKey (crawlSource m (some refs) fetch tbl) m r = true :=
        hasArtKey_applySaves_mono _ tbl m r hk
      rw [hk'] at hnk
      exact Bool.noConfusion hnk
    · -- r was missing in the first run and its fetch succeeded, so the first
      -- run saved it
      have hmiss : r ∈ missingRefs refs (existingRefs tbl m) := by
        simp only [missingRefs, List.mem_filter]
        refine ⟨hrefs, ?_⟩
        rw [Bool.not_eq_eq_eq_not, Bool.not_true, contains_existingRefs]
        simpa using hk
      have hne : refs.isEmpty = false := by
        cases refs with
        | nil => simp at hrefs
        | cons _ _ => rfl
      have hmne : (missingRefs refs (existingRefs tbl m)).isEmpty = false := by
        cases hmr : missingRefs refs (existingRefs tbl m) with
        | nil => rw [hmr] at hmiss; simp at hmiss
        | cons _ _ => rfl
      have hsave : CrawlEv.save m r d ∈ crawlSourceTrace m (some refs) fetch tbl := by
        rw [crawlSourceTrace_some]
        rw [if_neg (by simp [hne]), if_neg (by simp [hmne])]
        apply List.mem_append_left
        rw [List.mem_filterMap]
        exact ⟨r, hmiss, by rw [hf]; rfl⟩
      have hk'' := hasArtKey_applySaves_of_mem _ tbl m r d hsave
      have : hasArtKey (crawlSource m (some refs) fetch tbl) m r = true := hk''
      rw [this] at hnk
      exact Bool.noConfusion hnk

theorem crawlSource_idem_after_append (m : String)
    (listing : Option (List String)) (fetch : String → Option String)
    (tbl t : List ArtRow) :
    crawlSource m listing fetch (crawlSource m listing fetch tbl ++ t)
      = crawlSource m listing fetch tbl ++ t := by
  cases listing with
  | none => rfl
  | some refs =>
    exact crawlSource_of_saturated m refs fetch _
      (saturated_append m refs fetch _ t (crawlSource_saturated m refs fetch tbl))

/-- C3: the crawl is idempotent.  A second `crawl()` run against an unchanged
upstream (same listings, same per-item fetch outcomes) leaves the `artworks`
table exactly as the first run left it — zero new rows, for both sources —
and `save_artwork`'s `INSERT OR IGNORE` leaves the table unchanged whenever
the `(museum, accession_ref)` key is already present, so a retried reference
never duplicates (nor errors: `saveArtwork` is total). -/
theorem crawlerRun_idempotent :
    (∀ metListing louvreSitemaps fetchMet fetchLouvre tbl,
      crawlerRun metListing louvreSitemaps fetchMet fetchLouvre
          (crawlerRun metListing louvreSitemaps fetchMet fetchLouvre tbl)
        = crawlerRun metListing louvreSitemaps fetchMet fetchLouvre tbl) ∧
    (∀ tbl m r d, hasArtKey tbl m r = true → saveArtwork tbl m r d = tbl) := by
  constructor
  · intro metL louvreS fMet fLouvre tbl
    unfold crawlerRun
    set A := crawlSource "met" metL fMet tbl with hA
    have hex : ∃ t, crawlSource "louvre" (louvreS.map louvreRefs) fLouvre A = A ++ t := by
      cases louvreS.map louvreRefs with
      | none =>
        refine ⟨[], ?_⟩
        show A = A ++ []
        simp
      | some refs =>
        exact applySaves_append (crawlSourceTrace "louvre" (some refs) fLouvre A) A
    obtain ⟨t, ht⟩ := hex
    rw [ht]
    rw [crawlSource_idem_after_append "met" metL fMet tbl t]
    rw [← ht]
    have := crawlSource_idem_after_append "louvre" (louvreS.map louvreRefs) fLouvre A []
    simpa using this
  · intro tbl m r d h
    simp [saveArtwork, h]

/-- Witness for C3: replaying a ref already in the table is ignored. -/
theorem crawlerRun_idempotent_witness :
    saveArtwork [⟨"met", "1", "x"⟩] "met" "1" "y" = [⟨"met", "1", "x"⟩] :=
  crawlerRun_idempotent.2 [⟨"met", "1", "x"⟩] "met" "1" "y" (by decide)

theorem durableState_no_commit :
    ∀ (evs : List CrawlEv) (committed pending : List ArtRow),
      commitCount evs = 0 → durableState committed pending evs = committed := by
  intro evs
  induction evs with
  | nil => intro committed pending _; rfl
  | cons e evs ih =>
    intro committed pending h
    cases e with
    | save m r d =>
      exact ih committed (saveArtwork pending m r d) (by simpa [commitCount, isCommit] using h)
    | commit => simp [commitCount, isCommit] at h

theorem commitCount_saves_zero (m : String) (fetch : String → Option String)
    (missing : List String) :
    commitCount (missing.filterMap
      (fun r => (fetch r).map (fun d => CrawlEv.save m r d))) = 0 := by
  simp only [commitCount, List.length_eq_zero, List.filter_eq_nil_iff]
  intro e he
  rw [List.mem_filterMap] at he
  obtain ⟨r, _, hr⟩ := he
  cases hf : fetch r with
  | none => rw [hf] at hr; exact Option.noConfusion hr
  | some d =>
    rw [hf] at hr
    have : e = CrawlEv.save m r d := by
      simpa using hr.symm
    simp [this, isCommit]

/-- C5 counterexample to the claim as stated: a source crawl whose missing
set is empty (here the single listed ref is already persisted) issues zero
commits, not exactly one. -/
theorem crawlSource_commit_counterexample :
    commitCount (crawlSourceTrace "met" (some ["1"])
      (fun _ => some "d") [⟨"met", "1", "d0"⟩]) ≠ 1 := by
  decide

/-- C5 (amended): per source crawl the Record Store is committed at most
once, and never per item: whenever the crawl reaches the fetch phase
(listing obtained, non-empty, non-empty missing set), the trace is exactly
the per-item saves followed by one final commit; and a crash at any point
before that commit leaves the Record Store in its prior state. -/
theorem crawlSource_commit_discipline (m : String)
    (listing : Option (List String)) (fetch : String → Option String)
    (tbl : List ArtRow) :
    commitCount (crawlSourceTrace m listing fetch tbl) ≤ 1 ∧
    (∀ refs, listing = some refs → refs.isEmpty = false →
      (missingRefs refs (existingRefs tbl m)).isEmpty = false →
      ∃ saves, crawlSourceTrace m listing fetch tbl = saves ++ [CrawlEv.commit] ∧
        commitCount saves = 0) ∧
    (∀ k, commitCount ((crawlSourceTrace m listing fetch tbl).take k) = 0 →
      durableState tbl tbl ((crawlSourceTrace m listing fetch tbl).take k) = tbl) := by
  refine ⟨?_, ?_, ?_⟩
  · cases listing with
    | none => simp [crawlSourceTrace_none, commitCount]
    | some refs =>
      rw [crawlSourceTrace_some]
      by_cases he : refs.isEmpty
      · simp [he, commitCount]
      · rw [if_neg he]
        by_cases hm : (missingRefs refs (existingRefs tbl m)).isEmpty
        · simp [hm, commitCount]
        · rw [if_neg hm]
          have h1 := commitCount_saves_zero m fetch (missingRefs refs (existingRefs tbl m))
          simp only [commitCount] at h1 ⊢
          simp [List.filter_append, h1, isCommit]
  · intro refs hl he hm
    subst hl
    rw [crawlSourceTrace_some, if_neg (by simp [he]), if_neg (by simp [hm])]
    exact ⟨_, rfl, commitCount_saves_zero m fetch _⟩
  · intro k h
    exact durableState_no_commit _ tbl tbl h

/-- Witness for C5's amended theorem, at a crawl that does fetch one item:
the trace is save-then-commit, and a crash after the save but before the
commit (prefix of length 1) recovers the prior table. -/
theorem crawlSource_commit_discipline_witness :
    (∃ saves, crawlSourceTrace "met" (some ["1"]) (fun _ => some "d") []
        = saves ++ [CrawlEv.commit] ∧ commitCount saves = 0) ∧
    durableState [] [] ((crawlSourceTrace "met" (some ["1"])
        (fun _ => some "d") []).take 1) = [] := by
  refine ⟨?_, ?_⟩
  · exact (crawlSource_commit_discipline "met" (some ["1"])
      (fun _ => some "d") []).2.1 ["1"] rfl (by decide) (by decide)
  · exact (crawlSource_commit_discipline "met" (some ["1"])
      (fun _ => some "d") []).2.2 1 (by decide)

/-- C9: the Louvre sitemap adapter drops malformed or empty references.
Every reference passed downstream is non-empty and arises from a sitemap
`<loc>` entry whose URL contains the fixed `/ark:/53355/` path pattern and
whose suffix-stripped reference is exactly that non-empty string. -/
theorem louvreRefs_only_wellformed :
    ∀ (sitemaps : List (List String)) (r : String), r ∈ louvreRefs sitemaps →
      r ≠ "" ∧ ∃ doc ∈ sitemaps, ∃ u ∈ doc,
        subIn arkPat u.data = true ∧
        (⟨eraseOcc ".json".data (lastPart arkPat u.data).length
            (lastPart arkPat u.data)⟩ : String) = r := by
  intro sitemaps r hr
  simp only [louvreRefs, List.mem_flatMap, List.mem_filterMap] at hr
  obtain ⟨doc, hdoc, u, hu, hex⟩ := hr
  unfold extractLouvreRef at hex
  by_cases hin : subIn arkPat u.data
  · rw [if_pos hin] at hex
    by_cases hemp : (eraseOcc ".json".data (lastPart arkPat u.data).length
        (lastPart arkPat u.data)).isEmpty
    · rw [if_pos hemp] at hex
      exact Option.noConfusion hex
    · rw [if_neg hemp] at hex
      have hr' : (⟨eraseOcc ".json".data (lastPart arkPat u.data).length
          (lastPart arkPat u.data)⟩ : String) = r := by
        simpa using hex
      refine ⟨?_, doc, hdoc, u, hu, hin, hr'⟩
      intro hcon
      rw [← hr'] at hcon
      have : (eraseOcc ".json".data (lastPart arkPat u.data).length
          (lastPart arkPat u.data)) = [] := by
        have := congrArg String.data hcon
        simpa using this
      rw [this] at hemp
      exact hemp rfl
  · rw [if_neg hin] at hex
    exact Option.noConfusion hex

/-- Witness for C9 on a concrete sitemap tree: the well-formed entry is
extracted, while the empty-reference and non-matching entries are dropped. -/
theorem louvreRefs_only_wellformed_witness :
    louvreRefs [["https://collections.louvre.fr/ark:/53355/cl010066723.json",
                 "https://collections.louvre.fr/ark:/53355/.json",
                 "https://collections.louvre.fr/page/about"]]
      = ["cl010066723"] ∧
    ("cl010066723" ≠ "" ∧ ∃ doc ∈ [["https://collections.louvre.fr/ark:/53355/cl010066723.json",
                 "https://collections.louvre.fr/ark:/53355/.json",
                 "https://collections.louvre.fr/page/about"]], ∃ u ∈ doc,
        subIn arkPat u.data = true ∧
        (⟨eraseOcc ".json".data (lastPart arkPat u.data).length
            (lastPart arkPat u.data)⟩ : String) = "cl010066723") := by
  refine ⟨by decide, ?_⟩
  exact louvreRefs_only_wellformed _ "cl010066723" (by decide)

/-! Embedding ingestor (`scripts/embed.py`, stream from `scripts/download.py`).

The `embeddings` table (`id INTEGER PRIMARY KEY AUTOINCREMENT`,
`url TEXT UNIQUE`) is a list of rows in insertion order.  The ingestor's
input stream is produced by `scripts/download.py`, which extracts
`(URL, ID, thumbnail_url)` entries from the record store and runs
`df.drop_duplicates(subset=[url_col], keep='first')` before sharding, so the
stream reaching `scripts/embed.py` has corpus-wide distinct URLs; the
dataloader then groups it into fixed-size batches in shard order.

Per batch (inside `try/except`): select which of the batch's URLs already
exist, mask them out, `continue` if nothing is new, embed only the masked-in
images, insert the new rows, commit.  Any exception (e.g. from the embedding
model) is caught, logged, and the loop proceeds with the next batch.  The
embedding model is the black-box parameter `e` (per batch, `none` =
exception) resp. `f` (per image, total). -/

structure EmbRow where
  id : Nat
  url : String
  artworkId : Nat
  vec : List Int
  width : Int
  height : Int
  thumb : Option String
deriving DecidableEq, Repr

/-- One element of the webdataset stream: decoded image plus json metadata. -/
structure Item (Image : Type) where
  url : String
  artworkId : Nat
  image : Image
  width : Int
  height : Int
  thumb : Option String
deriving DecidableEq, Repr

def storeUrls (st : List EmbRow) : List String := st.map EmbRow.url

theorem contains_eq_true_iff {α : Type} [BEq α] [LawfulBEq α]
    (l : List α) (s : α) :
    l.contains s = true ↔ s ∈ l := by
  simp [List.contains, List.elem_iff]

/-- The rows `executemany` inserts for the zipped `(item, vector)` batch,
with autoincrement ids continuing from `n`. -/
def rowsFrom {Image : Type} : Nat → List (Item Image × List Int) → List EmbRow
  | _, [] => []
  | n, (it, v) :: rest =>
    ⟨n + 1, it.url, it.artworkId, v, it.width, it.height, it.thumb⟩ :: rowsFrom (n + 1) rest

/-- One iteration of the batch loop of `scripts/embed.py`, with a fallible
batch embedding `e` (`none` = exception, caught by the per-batch
`try/except`: nothing is inserted, nothing committed, the run continues). -/
def processBatchE {Image : Type} (e : List Image → Option (List (List Int)))
    (st : List EmbRow) (batch : List (Item Image)) : List EmbRow :=
  let existing := (batch.map (fun it => it.url)).filter
    (fun u => (storeUrls st).contains u)
  let newItems := batch.filter (fun it => !(existing.contains it.url))
  if newItems.isEmpty then st
  else
    match e (newItems.map (fun it => it.image)) with
    | none => st
    | some vecs => st ++ rowsFrom st.length (newItems.zip vecs)

/-- The batch loop with a total per-image embedding function. -/
def processBatch {Image : Type} (f : Image → List Int)
    (st : List EmbRow) (batch : List (Item Image)) : List EmbRow :=
  processBatchE (fun imgs => some (imgs.map f)) st batch

def runIngestE {Image : Type} (e : List Image → Option (List (List Int)))
    (st : List EmbRow) (batches : List (List (Item Image))) : List EmbRow :=
  batches.foldl (processBatchE e) st

def runIngest {Image : Type} (f : Image → List Int)
    (st : List EmbRow) (batches : List (List (Item Image))) : List EmbRow :=
  batches.foldl (processBatch f) st

/-- Model of `df.drop_duplicates(subset=[url_col], keep='first')` of
`scripts/download.py`: keep the first entry per URL. -/
def dedupByUrlAux {Image : Type} (seen : List String) :
    List (Item Image) → List (Item Image)
  | [] => []
  | it :: rest =>
    if seen.contains it.url then dedupByUrlAux seen rest
    else it :: dedupByUrlAux (it.url :: seen) rest

def dedupByUrl {Image : Type} (items : List (Item Image)) : List (Item Image) :=
  dedupByUrlAux [] items

/-- The dataloader's grouping of the stream into fixed-size batches (fuel =
stream length keeps the recursion structural). -/
def chunkAux {α : Type} (b : Nat) : Nat → List α → List (List α)
  | _, [] => []
  | 0, l => [l]
  | fuel + 1, l => l.take b :: chunkAux b fuel (l.drop b)

def chunkList {α : Type} (b : Nat) (l : List α) : List (List α) :=
  chunkAux b l.length l

theorem filter_existing_collapse {Image : Type} (st : List EmbRow)
    (batch : List (Item Image)) :
    batch.filter (fun it => !(((batch.map (fun b => b.url)).filter
        (fun u => (storeUrls st).contains u)).contains it.url))
      = batch.filter (fun it => !((storeUrls st).contains it.url)) := by
  apply List.filter_congr
  intro it hit
  congr 1
  rw [Bool.eq_iff_iff, contains_eq_true_iff, contains_eq_true_iff, List.mem_filter]
  constructor
  · rintro ⟨_, h2⟩
    exact (contains_eq_true_iff _ _).mp h2
  · intro h
    exact ⟨List.mem_map_of_mem (fun b => b.url) hit, (contains_eq_true_iff _ _).mpr h⟩

theorem processBatchE_eq {Image : Type} (e : List Image → Option (List (List Int)))
    (st : List EmbRow) (batch : List (Item Image)) :
    processBatchE e st batch =
      if (batch.filter (fun it => !((storeUrls st).contains it.url))).isEmpty then st
      else
        match e ((batch.filter (fun it => !((storeUrls st).contains it.url))).map
            (fun it => it.image)) with
        | none => st
        | some vecs =>
          st ++ rowsFrom st.length
            ((batch.filter (fun it => !((storeUrls st).contains it.url))).zip vecs) := by
  simp only [processBatchE]
  rw [filter_existing_collapse]

theorem processBatch_eq {Image : Type} (f : Image → List Int)
    (st : List EmbRow) (batch : List (Item Image)) :
    processBatch f st batch =
      if (batch.filter (fun it => !((storeUrls st).contains it.url))).isEmpty then st
      else
        st ++ rowsFrom st.length
          ((batch.filter (fun it => !((storeUrls st).contains it.url))).zip
            ((batch.filter (fun it => !((storeUrls st).contains it.url))).map
              (fun it => f it.image))) := by
  rw [processBatch, processBatchE_eq]
  by_cases h : (batch.filter (fun it => !((storeUrls st).contains it.url))).isEmpty
  · rw [if_pos h, if_pos h]
  · rw [if_neg h, if_neg h]
    rw [List.map_map]
    rfl

theorem rowsFrom_map_url {Image : Type} (g : Item Image → List Int) :
    ∀ (items : List (Item Image)) (n : Nat),
      (rowsFrom n (items.zip (items.map g))).map EmbRow.url
        = items.map (fun it => it.url) := by
  intro items
  induction items with
  | nil => intro n; rfl
  | cons it rest ih =>
    intro n
    show it.url :: (rowsFrom (n + 1) (rest.zip (rest.map g))).map EmbRow.url
        = it.url :: rest.map (fun it => it.url)
    rw [ih (n + 1)]

theorem storeUrls_processBatch {Image : Type} (f : Image → List Int)
    (st : List EmbRow) (batch : List (Item Image)) :
    storeUrls (processBatch f st batch)
      = storeUrls st
        ++ (batch.filter (fun it => !((storeUrls st).contains it.url))).map
             (fun it => it.url) := by
  rw [processBatch_eq]
  by_cases h : (batch.filter (fun it => !((storeUrls st).contains it.url))).isEmpty
  · rw [if_pos h]
    rw [List.isEmpty_iff] at h
    rw [h]
    simp
  · rw [if_neg h]
    show (st ++ rowsFrom st.length _).map EmbRow.url = _
    rw [List.map_append]
    rw [rowsFrom_map_url (fun it => f it.image)]
    rfl

theorem newUrls_not_in_store {Image : Type} (st : List EmbRow)
    (batch : List (Item Image)) (u : String)
    (hu : u ∈ (batch.filter (fun it => !((storeUrls st).contains it.url))).map
        (fun it => it.url)) :
    u ∉ storeUrls st := by
  rw [List.mem_map] at hu
  obtain ⟨it, hit, rfl⟩ := hu
  rw [List.mem_filter] at hit
  have := hit.2
  intro hmem
  rw [(contains_eq_true_iff _ _).mpr hmem] at this
  exact Bool.noConfusion this

theorem storeUrls_runIngest {Image : Type} (f : Image → List Int) :
    ∀ (batches : List (List (Item Image))) (st : List EmbRow),
      (storeUrls st).Nodup →
      (∀ b ∈ batches, (b.map (fun it => it.url)).Nodup) →
      (storeUrls (runIngest f st batches)).Nodup ∧
      (∀ u, u ∈ storeUrls (runIngest f st batches) ↔
        u ∈ storeUrls st ∨ ∃ b ∈ batches, u ∈ b.map (fun it => it.url)) := by
  intro batches
  induction batches with
  | nil =>
    intro st hst _
    exact ⟨hst, fun u => by simp [runIngest]⟩
  | cons b rest ih =>
    intro st hst hb
    have hb0 : (b.map (fun it => it.url)).Nodup := hb b (List.mem_cons_self b rest)
    have hstep : storeUrls (processBatch f st b)
        = storeUrls st
          ++ (b.filter (fun it => !((storeUrls st).contains it.url))).map
               (fun it => it.url) := storeUrls_processBatch f st b
    have hnew_nodup : ((b.filter (fun it => !((storeUrls st).contains it.url))).map
        (fun it => it.url)).Nodup :=
      hb0.sublist (List.Sublist.map _ (List.filter_sublist b))
    have hnodup' : (storeUrls (processBatch f st b)).Nodup := by
      rw [hstep]
      exact hst.append hnew_nodup
        (fun u hu hu' => newUrls_not_in_store st b u hu' hu)
    have hrun : runIngest f st (b :: rest) = runIngest f (processBatch f st b) rest := rfl
    obtain ⟨hn, hm⟩ := ih (processBatch f st b) hnodup'
      (fun c hc => hb c (List.mem_cons_of_mem b hc))
    rw [hrun]
    refine ⟨hn, fun u => ?_⟩
    rw [hm u, hstep, List.mem_append]
    constructor
    · rintro ((h | h) | ⟨c, hc, hu⟩)
      · exact Or.inl h
      · rw [List.mem_map] at h
        obtain ⟨it, hit, rfl⟩ := h
        rw [List.mem_filter] at hit
        exact Or.inr ⟨b, List.mem_cons_self b rest,
          List.mem_map_of_mem (fun it => it.url) hit.1⟩
      · exact Or.inr ⟨c, List.mem_cons_of_mem b hc, hu⟩
    · rintro (h | ⟨c, hc, hu⟩)
      · exact Or.inl (Or.inl h)
      · rcases List.mem_cons.mp hc with rfl | hc'
        · by_cases hin : u ∈ storeUrls st
          · exact Or.inl (Or.inl hin)
          · rw [List.mem_map] at hu
            obtain ⟨it, hit, rfl⟩ := hu
            refine Or.inl (Or.inr ?_)
            rw [List.mem_map]
            refine ⟨it, ?_, rfl⟩
            rw [List.mem_filter]
            refine ⟨hit, ?_⟩
            cases hcc : (storeUrls st).contains it.url with
            | false => rfl
            | true => exact absurd ((contains_eq_true_iff _ _).mp hcc) hin
        · exact Or.inr ⟨c, hc', hu⟩

theorem chunkAux_flatten {α : Type} (b : Nat) (hb : 0 < b) :
    ∀ (fuel : Nat) (l : List α), l.length ≤ fuel → (chunkAux b fuel l).flatten = l := by
  intro fuel
  induction fuel with
  | zero =>
    intro l hl
    cases l with
    | nil => rfl
    | cons x xs => simp at hl
  | succ fuel ih =>
    intro l hl
    cases l with
    | nil => rfl
    | cons x xs =>
      show ((x :: xs).take b :: chunkAux b fuel ((x :: xs).drop b)).flatten = x :: xs
      rw [List.flatten_cons]
      have hl' : xs.length + 1 ≤ fuel + 1 := by simpa using hl
      rw [ih ((x :: xs).drop b)
        (by simp only [List.length_drop, List.length_cons]; omega)]
      exact List.take_append_drop b (x :: xs)

theorem chunkAux_mem_sublist {α : Type} (b : Nat) :
    ∀ (fuel : Nat) (l c : List α), c ∈ chunkAux b fuel l → c.Sublist l := by
  intro fuel
  induction fuel with
  | zero =>
    intro l c hc
    cases l with
    | nil => simp [chunkAux] at hc
    | cons x xs =>
      have : c = x :: xs := by simpa [chunkAux] using hc
      rw [this]
  | succ fuel ih =>
    intro l c hc
    cases l with
    | nil => simp [chunkAux] at hc
    | cons x xs =>
      have hc' : c = (x :: xs).take b ∨ c ∈ chunkAux b fuel ((x :: xs).drop b) := by
        simpa [chunkAux] using hc
      rcases hc' with rfl | hc'
      · exact List.take_sublist b (x :: xs)
      · exact (ih _ c hc').trans (List.drop_sublist b (x :: xs))

theorem dedupByUrlAux_mem {Image : Type} :
    ∀ (items : List (Item Image)) (seen : List String) (u : String),
      u ∈ (dedupByUrlAux seen items).map (fun it => it.url) ↔
        u ∈ items.map (fun it => it.url) ∧ u ∉ seen := by
  intro items
  induction items with
  | nil => intro seen u; simp [dedupByUrlAux]
  | cons it rest ih =>
    intro seen u
    by_cases hseen : it.url ∈ seen
    · rw [show dedupByUrlAux seen (it :: rest) = dedupByUrlAux seen rest by
            simp [dedupByUrlAux, hseen]]
      rw [ih seen u]
      simp only [List.map_cons, List.mem_cons]
      constructor
      · rintro ⟨hr, hs⟩; exact ⟨Or.inr hr, hs⟩
      · rintro ⟨hu | hr, hs⟩
        · exact absurd (hu ▸ hseen) hs
        · exact ⟨hr, hs⟩
    · rw [show dedupByUrlAux seen (it :: rest) = it :: dedupByUrlAux (it.url :: seen) rest by
            simp [dedupByUrlAux, hseen]]
      simp only [List.map_cons, List.mem_cons]
      rw [ih (it.url :: seen) u]
      simp only [List.mem_cons]
      constructor
      · rintro (rfl | ⟨hr, hs⟩)
        · exact ⟨Or.inl rfl, hseen⟩
        · exact ⟨Or.inr hr, fun hm => hs (Or.inr hm)⟩
      · rintro ⟨hu | hr, hs⟩
        · exact Or.inl hu
        · by_cases he : u = it.url
          · exact Or.inl he
          · refine Or.inr ⟨hr, fun hm => ?_⟩
            rcases hm with h' | h'
            · exact he h'
            · exact hs h'

theorem dedupByUrlAux_nodup {Image : Type} :
    ∀ (items : List (Item Image)) (seen : List String),
      ((dedupByUrlAux seen items).map (fun it => it.url)).Nodup := by
  intro items
  induction items with
  | nil => intro seen; simp [dedupByUrlAux]
  | cons it rest ih =>
    intro seen
    by_cases hseen : it.url ∈ seen
    · rw [show dedupByUrlAux seen (it :: rest) = dedupByUrlAux seen rest by
            simp [dedupByUrlAux, hseen]]
      exact ih seen
    · rw [show dedupByUrlAux seen (it :: rest) = it :: dedupByUrlAux (it.url :: seen) rest by
            simp [dedupByUrlAux, hseen]]
      rw [List.map_cons, List.nodup_cons]
      refine ⟨fun hm => ?_, ih (it.url :: seen)⟩
      have := (dedupByUrlAux_mem rest (it.url :: seen) it.url).mp hm
      exact this.2 (List.mem_cons_self _ _)

/-- C4: URL-level dedup of the embedding ingestion.  (1) Batch items whose
URL is already in the Embedding Store are never re-embedded: the run's
result does not depend on the embedding function's values on them.  (2) They
are never re-inserted: a batch adds exactly the rows of its not-yet-present
URLs.  (3) Over the whole corpus — any record stream from either or both
sources, with duplicate image URLs allowed — ingesting the
`drop_duplicates`-ed stream in batches into an empty store yields a store
whose `url` column is duplicate-free and holds exactly one row for every URL
of the stream. -/
theorem embedStore_url_unique :
    (∀ (Image : Type) (f g : Image → List Int) (st : List EmbRow)
        (batch : List (Item Image)),
      (∀ it ∈ batch, it.url ∉ storeUrls st → f it.image = g it.image) →
      processBatch f st batch = processBatch g st batch) ∧
    (∀ (Image : Type) (f : Image → List Int) (st : List EmbRow)
        (batch : List (Item Image)),
      storeUrls (processBatch f st batch)
        = storeUrls st
          ++ (batch.filter (fun it => !((storeUrls st).contains it.url))).map
               (fun it => it.url)) ∧
    (∀ (Image : Type) (f : Image → List Int) (items : List (Item Image))
        (b : Nat), 0 < b →
      (storeUrls (runIngest f [] (chunkList b (dedupByUrl items)))).Nodup ∧
      ∀ u ∈ items.map (fun it => it.url),
        (storeUrls (runIngest f [] (chunkList b (dedupByUrl items)))).count u = 1) := by
  refine ⟨?_, ?_, ?_⟩
  · intro Image f g st batch hagree
    rw [processBatch_eq, processBatch_eq]
    by_cases h : (batch.filter (fun it => !((storeUrls st).contains it.url))).isEmpty
    · rw [if_pos h, if_pos h]
    · rw [if_neg h, if_neg h]
      have hmap : (batch.filter (fun it => !((storeUrls st).contains it.url))).map
            (fun it => f it.image)
          = (batch.filter (fun it => !((storeUrls st).contains it.url))).map
            (fun it => g it.image) := by
        apply List.map_congr_left
        intro it hit
        rw [List.mem_filter] at hit
        refine hagree it hit.1 (fun hm => ?_)
        have := hit.2
        rw [(contains_eq_true_iff _ _).mpr hm] at this
        exact Bool.noConfusion this
      rw [hmap]
  · intro Image f st batch
    exact storeUrls_processBatch f st batch
  · intro Image f items b hb
    have hbatchnodup : ∀ c ∈ chunkList b (dedupByUrl items),
        (c.map (fun it => it.url)).Nodup := by
      intro c hc
      have hsub := chunkAux_mem_sublist b _ _ c hc
      exact (dedupByUrlAux_nodup items []).sublist (List.Sublist.map _ hsub)
    obtain ⟨hnodup, hmem⟩ := storeUrls_runIngest f (chunkList b (dedupByUrl items)) []
      (by simp [storeUrls]) hbatchnodup
    have hstream : ∀ u, (∃ c ∈ chunkList b (dedupByUrl items),
        u ∈ c.map (fun it => it.url)) ↔ u ∈ (dedupByUrl items).map (fun it => it.url) := by
      intro u
      constructor
      · rintro ⟨c, hc, hu⟩
        have hsub := chunkAux_mem_sublist b _ _ c hc
        exact (List.Sublist.map (fun it => it.url) hsub).mem hu
      · intro hu
        rw [List.mem_map] at hu
        obtain ⟨it, hit, rfl⟩ := hu
        have hflat : (chunkList b (dedupByUrl items)).flatten = dedupByUrl items :=
          chunkAux_flatten b hb _ _ (Nat.le_refl _)
        rw [← hflat] at hit
        rw [List.mem_flatten] at hit
        obtain ⟨c, hc, hitc⟩ := hit
        exact ⟨c, hc, List.mem_map_of_mem (fun it => it.url) hitc⟩
    refine ⟨hnodup, fun u hu => ?_⟩
    apply List.count_eq_one_of_mem hnodup
    rw [hmem u]
    refine Or.inr ((hstream u).mpr ?_)
    exact (dedupByUrlAux_mem items [] u).mpr ⟨hu, List.not_mem_nil u⟩

/-- Witness for C4 at a concrete corpus where two records share the image
URL `"u1"`: after ingestion the Embedding Store holds exactly one `"u1"`
row. -/
theorem embedStore_url_unique_witness :
    (storeUrls (runIngest (fun _ => ([1] : List Int)) []
      (chunkList 2 (dedupByUrl
        [(⟨"u1", 1, 0, 10, 10, none⟩ : Item Nat),
         ⟨"u1", 2, 0, 20, 20, none⟩,
         ⟨"u2", 3, 0, 30, 30, none⟩])))).count "u1" = 1 :=
  (embedStore_url_unique.2.2 Nat (fun _ => ([1] : List Int))
    [⟨"u1", 1, 0, 10, 10, none⟩, ⟨"u1", 2, 0, 20, 20, none⟩,
     ⟨"u2", 3, 0, 30, 30, none⟩] 2 (by decide)).2 "u1" (by decide)

theorem processBatchE_append {Image : Type}
    (e : List Image → Option (List (List Int))) (st : List EmbRow)
    (batch : List (Item Image)) :
    ∃ t, processBatchE e st batch = st ++ t := by
  rw [processBatchE_eq]
  by_cases h : (batch.filter (fun it => !((storeUrls st).contains it.url))).isEmpty
  · exact ⟨[], by rw [if_pos h]; simp⟩
  · rw [if_neg h]
    cases e ((batch.filter (fun it => !((storeUrls st).contains it.url))).map
        (fun it => it.image)) with
    | none => exact ⟨[], by simp⟩
    | some vecs => exact ⟨_, rfl⟩

/-- C8: per-batch failure isolation of the embedding ingestion.  A batch
whose embedding call raises (returns `none`) leaves the Embedding Store
exactly as it was — nothing from that batch is inserted or committed; the
run always continues with the next batch; and whatever a run does, every
previously committed row survives unchanged, in place (the result extends
the starting store). -/
theorem embed_batch_failure_isolated :
    (∀ (Image : Type) (e : List Image → Option (List (List Int)))
        (st : List EmbRow) (batch : List (Item Image)),
      (batch.filter (fun it => !((storeUrls st).contains it.url))).isEmpty = false →
      e ((batch.filter (fun it => !((storeUrls st).contains it.url))).map
          (fun it => it.image)) = none →
      processBatchE e st batch = st) ∧
    (∀ (Image : Type) (e : List Image → Option (List (List Int)))
        (st : List EmbRow) (batches : List (List (Item Image))),
      ∃ tail, runIngestE e st batches = st ++ tail) ∧
    (∀ (Image : Type) (e : List Image → Option (List (List Int)))
        (st : List EmbRow) (batch : List (Item Image))
        (rest : List (List (Item Image))),
      runIngestE e st (batch :: rest) = runIngestE e (processBatchE e st batch) rest) := by
  refine ⟨?_, ?_, ?_⟩
  · intro Image e st batch hne hfail
    rw [processBatchE_eq,
      if_neg (fun hcontra => by rw [hcontra] at hne; exact Bool.noConfusion hne),
      hfail]
  · intro Image e st batches
    induction batches generalizing st with
    | nil => exact ⟨[], by simp [runIngestE]⟩
    | cons batch rest ih =>
      obtain ⟨t₁, ht₁⟩ := processBatchE_append e st batch
      obtain ⟨t₂, ht₂⟩ := ih (processBatchE e st batch)
      refine ⟨t₁ ++ t₂, ?_⟩
      show runIngestE e (processBatchE e st batch) rest = st ++ (t₁ ++ t₂)
      rw [ht₂, ht₁, List.append_assoc]
  · intro Image e st batch rest
    rfl

/-- Witness for C8: a batch whose embedding call fails leaves the store
untouched. -/
theorem embed_batch_failure_isolated_witness :
    processBatchE (fun _ => (none : Option (List (List Int)))) []
      [(⟨"u", 1, 0, 10, 10, none⟩ : Item Nat)] = [] :=
  embed_batch_failure_isolated.1 Nat (fun _ => none) []
    [⟨"u", 1, 0, 10, 10, none⟩] (by decide) rfl

/-! Query service (`server.py`).

`search` and `random_images` read the immutable FAISS index (modelled as the
black-box parameter `ann` resp. its population size `ntotal`) plus the
`embeddings` table.  A SQLite `SELECT ... WHERE id IN (...)` on the integer
primary key returns the matching rows in ascending rowid order — the store
list is kept in that (insertion/id) order, so the batch fetch is a filter
over the store list; `server.py` performs no re-sort afterwards. -/

structure SearchResult where
  url : String
  width : Int
  height : Int
  thumb : Option String
deriving DecidableEq, Repr

def toResult (r : EmbRow) : SearchResult :=
  ⟨r.url, r.width, r.height, r.thumb⟩

/-- Model of `SELECT embedding FROM embeddings WHERE url = ?` with `fetchone()`. -/
def lookupUrl (store : List EmbRow) (url : String) : Option EmbRow :=
  store.find? (fun r => r.url == url)

/-- Model of `SELECT url, width, height, thumbnail_url FROM embeddings WHERE id IN
(...)`: the rows whose id is listed, in the store's ascending-id order. -/
def fetchByIds (store : List EmbRow) (ids : List Nat) : List EmbRow :=
  store.filter (fun r => ids.contains r.id)

/-- Endpoint `/api/search` of `server.py`.  `ann vec k` models
`index.search(embedding.reshape(1, -1), k)`'s neighbor array `I[0]`: the
0-based FAISS positions in rank order.  (FAISS pads with `-1` when `k`
exceeds the population; `-1 + 1 = 0` matches no row since ids start at 1,
so the padding is omitted from the model.)  Steps: look up the query row by
URL (absent → empty result), take `k = offset + limit` neighbors, drop the
first `offset`, shift to 1-based ids, batch-fetch those rows and return
them in the order the store hands them back. -/
def search (ann : List Int → Nat → List Nat) (store : List EmbRow)
    (url : String) (offset limit : Nat) : List SearchResult :=
  match lookupUrl store url with
  | none => []
  | some row =>
    let neighborIds := ((ann row.vec (offset + limit)).drop offset).map (· + 1)
    if neighborIds.isEmpty then []
    else (fetchByIds store neighborIds).map toResult

def lookupId (store : List EmbRow) (i : Nat) : Option EmbRow :=
  store.find? (fun r => r.id == i)

/-- The search result order the spec prescribes (for comparison with
`search`): map each surviving neighbor, in rank order, to its row —
"return them preserving the relative rank order returned by the index". -/
def searchSpecOrder (ann : List Int → Nat → List Nat) (store : List EmbRow)
    (url : String) (offset limit : Nat) : List SearchResult :=
  match lookupUrl store url with
  | none => []
  | some row =>
    (((ann row.vec (offset + limit)).drop offset).map (· + 1)).filterMap
      (fun i => (lookupId store i).map toResult)

/-- Inner product of two embedding vectors. -/
def dotInt (u v : List Int) : Int :=
  (List.zipWith (fun a b => a * b) u v).sum

/-- Stable descending-score insertion used by the exact-search model. -/
def insertByScore (q : List Int) (vecs : List (List Int)) (i : Nat) :
    List Nat → List Nat
  | [] => [i]
  | j :: rest =>
    if dotInt q (vecs.getD i []) > dotInt q (vecs.getD j []) then i :: j :: rest
    else j :: insertByScore q vecs i rest

/-- The ideal inner-product nearest-neighbor search over the index's vector
population (the FAISS IVFPQ internals are out of scope; this is the exact
`METRIC_INNER_PRODUCT` ranking the index approximates): all positions sorted
by descending inner product with the query, ties broken by lower position,
truncated to `k`. -/
def annExactSearch (vecs : List (List Int)) (q : List Int) (k : Nat) : List Nat :=
  ((List.range vecs.length).foldl (fun acc i => insertByScore q vecs i acc) []).take k

/-- A concrete two-row Embedding Store with L2-normalized, mutually
orthogonal vectors, in ascending-id order. -/
def demoStore : List EmbRow :=
  [⟨1, "urlA", 1, [1, 0], 10, 10, none⟩,
   ⟨2, "urlB", 2, [0, 1], 20, 20, none⟩]

/-- C2 fails on the code: `search` returns the batch-fetched rows in the
store's ascending-id order without re-sorting by neighbor rank.  With the
ANN query ranking position 1 (id 2) before position 0 (id 1), the service
returns `[urlA, urlB]` while the rank order is `[urlB, urlA]`. -/
theorem search_rank_order_bug :
    search (fun _ _ => [1, 0]) demoStore "urlB" 0 2
        = [toResult ⟨1, "urlA", 1, [1, 0], 10, 10, none⟩,
           toResult ⟨2, "urlB", 2, [0, 1], 20, 20, none⟩] ∧
    searchSpecOrder (fun _ _ => [1, 0]) demoStore "urlB" 0 2
        = [toResult ⟨2, "urlB", 2, [0, 1], 20, 20, none⟩,
           toResult ⟨1, "urlA", 1, [1, 0], 10, 10, none⟩] ∧
    search (fun _ _ => [1, 0]) demoStore "urlB" 0 2
        ≠ searchSpecOrder (fun _ _ => [1, 0]) demoStore "urlB" 0 2 := by
  decide

/-- C6 fails on the code for the same reason: on `demoStore` (normalized
vectors, `dotInt v v = 1`), the exact inner-product ANN ranks the query's
own row (position 1, id 2) first, yet `search("urlB", 0, 2)` returns
`urlA` at rank 0 and the query's own row only at rank 1, because the rows
come back in ascending-id order. -/
theorem search_reflexivity_bug :
    (∀ r ∈ demoStore, dotInt r.vec r.vec = 1) ∧
    annExactSearch (demoStore.map EmbRow.vec) [0, 1] 2 = [1, 0] ∧
    (search (annExactSearch (demoStore.map EmbRow.vec)) demoStore "urlB" 0 2).map
        SearchResult.url = ["urlA", "urlB"] := by
  decide

/-- One `results_map[key] = value` step of `random_images`: Python dicts
keep the first-insertion position of a key and overwrite its value. -/
def insertResultDict (d : List (String × SearchResult)) (k : String)
    (v : SearchResult) : List (String × SearchResult) :=
  if d.any (fun p => p.1 == k) then d.map (fun p => if p.1 == k then (k, v) else p)
  else d ++ [(k, v)]

/-- The `results_map` comprehension plus `list(results_map.values())` of
`random_images`. -/
def resultsMapValues (rows : List EmbRow) : List SearchResult :=
  (rows.foldl (fun d r => insertResultDict d r.url (toResult r)) []).map Prod.snd

/-- Endpoint `/api/random` of `server.py`.  `ntotal` is `index.ntotal` (the FAISS
population, independent of the store); `sample n k` models
`random.sample(range(n), k)`, the service's source of randomness.  Steps:
empty index → empty result; clamp `actual_limit = min(limit, total)`;
sample that many 0-based positions; shift to 1-based ids; batch-fetch;
build the url-keyed dict and return its values.  (The `except ValueError`
fallback around `random.sample` is unreachable: `actual_limit` never
exceeds `ntotal` and is never negative.)  The `offset` parameter is
accepted and never read, as in the code.  The function is total: no input
raises. -/
def randomImages (sample : Nat → Nat → List Nat) (ntotal : Nat)
    (store : List EmbRow) (offset limit : Nat) : List SearchResult :=
  if ntotal = 0 then []
  else
    let actualLimit := min limit ntotal
    let dbIds := (sample ntotal actualLimit).map (· + 1)
    if dbIds.isEmpty then []
    else resultsMapValues (fetchByIds store dbIds)

theorem insertResultDict_length (d : List (String × SearchResult))
    (k : String) (v : SearchResult) :
    (insertResultDict d k v).length ≤ d.length + 1 := by
  unfold insertResultDict
  by_cases h : d.any (fun p => p.1 == k)
  · simp [h]
  · simp [h]

theorem resultsMapValues_length (rows : List EmbRow) :
    (resultsMapValues rows).length ≤ rows.length := by
  have key : ∀ (rows : List EmbRow) (d : List (String × SearchResult)),
      (rows.foldl (fun d r => insertResultDict d r.url (toResult r)) d).length
        ≤ d.length + rows.length := by
    intro rows
    induction rows with
    | nil => intro d; simp
    | cons r rest ih =>
      intro d
      calc (rest.foldl (fun d r => insertResultDict d r.url (toResult r))
              (insertResultDict d r.url (toResult r))).length
          ≤ (insertResultDict d r.url (toResult r)).length + rest.length := ih _
        _ ≤ (d.length + 1) + rest.length :=
            Nat.add_le_add_right (insertResultDict_length d r.url (toResult r)) _
        _ = d.length + (r :: rest).length := by simp; omega
  have := key rows []
  simpa [resultsMapValues] using this

theorem fetchByIds_length_le (store : List EmbRow) (ids : List Nat)
    (hids : (store.map EmbRow.id).Nodup) :
    (fetchByIds store ids).length ≤ ids.length := by
  have hsub : ((fetchByIds store ids).map EmbRow.id).Sublist (store.map EmbRow.id) :=
    List.Sublist.map EmbRow.id (List.filter_sublist store)
  have hnd : ((fetchByIds store ids).map EmbRow.id).Nodup := hids.sublist hsub
  have hsubset : ∀ x ∈ (fetchByIds store ids).map EmbRow.id, x ∈ ids := by
    intro x hx
    rw [List.mem_map] at hx
    obtain ⟨r, hr, rfl⟩ := hx
    rw [fetchByIds, List.mem_filter] at hr
    exact (contains_eq_true_iff _ _).mp hr.2
  calc (fetchByIds store ids).length
      = ((fetchByIds store ids).map EmbRow.id).length := (List.length_map _ _).symm
    _ = ((fetchByIds store ids).map EmbRow.id).toFinset.card :=
        (List.toFinset_card_of_nodup hnd).symm
    _ ≤ ids.toFinset.card := by
        apply Finset.card_le_card
        intro x hx
        rw [List.mem_toFinset] at hx ⊢
        exact hsubset x hx
    _ ≤ ids.length := ids.toFinset_card_le

/-- C7: `random(offset, limit)` is clamped and total.  Provided the sampler
obeys `random.sample`'s contract (`k ≤ n` samples yield `k` elements) and
the store's ids are unique (autoincrement primary key), the endpoint
returns at most `min(limit, ntotal)` results for every offset and limit —
in particular never more than the index population when `limit` exceeds it
— and returns the empty list (never an error: the model is a total
function) on an empty index population. -/
theorem random_images_clamped (sample : Nat → Nat → List Nat)
    (store : List EmbRow) (ntotal offset limit : Nat)
    (hsample : ∀ n k, k ≤ n → (sample n k).length = k)
    (hids : (store.map EmbRow.id).Nodup) :
    (randomImages sample ntotal store offset limit).length ≤ min limit ntotal ∧
    (ntotal = 0 → randomImages sample ntotal store offset limit = []) := by
  constructor
  · unfold randomImages
    by_cases h0 : ntotal = 0
    · simp [h0]
    · rw [if_neg h0]
      by_cases hemp : ((sample ntotal (min limit ntotal)).map (· + 1)).isEmpty
      · simp only [hemp, if_true]
        exact Nat.zero_le _
      · simp only [hemp, if_false]
        calc (resultsMapValues (fetchByIds store
                ((sample ntotal (min limit ntotal)).map (· + 1)))).length
            ≤ (fetchByIds store
                ((sample ntotal (min limit ntotal)).map (· + 1))).length :=
              resultsMapValues_length _
          _ ≤ ((sample ntotal (min limit ntotal)).map (· + 1)).length :=
              fetchByIds_length_le store _ hids
          _ = (sample ntotal (min limit ntotal)).length := List.length_map _ _
          _ = min limit ntotal :=
              hsample ntotal (min limit ntotal) (Nat.min_le_right _ _)
  · intro h0
    simp [randomImages, h0]

/-- Witness for C7 with a five-over-population request against the two-row
store: at most two results come back. -/
theorem random_images_clamped_witness :
    (randomImages (fun _ k => List.range k) 2 demoStore 0 5).length ≤ min 5 2 :=
  (random_images_clamped (fun _ k => List.range k) demoStore 2 0 5
    (fun n k _ => List.length_range k) (by decide)).1

/-- C10: the `offset` query parameter of `/api/random` is dead: with the
same sampler, index population, store and limit, any two offsets produce
identical results. -/
theorem random_images_offset_unused (sample : Nat → Nat → List Nat)
    (ntotal : Nat) (store : List EmbRow) (o₁ o₂ limit : Nat) :
    randomImages sample ntotal store o₁ limit
      = randomImages sample ntotal store o₂ limit := rfl

end Artalike
